import Mathlib

/-!
Shallow embedding of the `ZstdProcessor` streaming compression engine
(src/zstd.js) together with proofs about its chunking, framing, progress,
metrics and error behaviour.

Modelling conventions:
* A JS `Uint8Array` is a `List Nat` (`Bytes`); the engine never inspects
  byte values, so the 0..255 range is irrelevant to every statement here.
* The external `@oneidentity/zstd-js` codec is a black box (spec section 1):
  it is a record of functions (`Codec`).  A codec call that throws is
  modelled as returning `none`.
* Wall-clock durations measured with `performance.now()` are environment
  inputs; each operation takes the measured elapsed time as an explicit
  parameter and records it on success, exactly where the JS writes it.
* JS exceptions are `Except` errors.  An error value carries the processor
  state at throw time, so that "metrics unchanged on failure" is a real
  statement about where the source performs its writes, not an artifact.
* The progress callback is modelled by returning the list of invocations
  (fraction, compressed chunk length) in call order; fractions are exact
  rationals standing for the JS float `Math.min((i + chunkSize)/len, 1)`.
* In `streamCompress` the JS third argument `true` of
  `ZstdStream.compress(chunk, level, true, dict)` is constant and folded
  into the codec field.  Passing no dictionary argument and passing the
  `null` dictionary are both modelled as `none`.
-/

/-- Bytes of a JS Uint8Array, as a list of naturals. -/
abbrev Bytes := List Nat

/-- The external codec object produced by `ZstdInit()`: the three entry
points the engine calls (`ZstdSimple.compress`, `ZstdStream.compress` with
its constant `true` third argument folded in, and `ZstdStream.decompress`).
A call that throws returns `none`. -/
structure Codec where
  zstdSimpleCompress : Bytes → Int → Option Bytes → Option Bytes
  zstdStreamCompress : Bytes → Int → Option Bytes → Option Bytes
  zstdStreamDecompress : Bytes → Option Bytes → Option Bytes

/-- The mutable `performanceMetrics` record of a `ZstdProcessor`. -/
structure Metrics where
  compressionTime : ℚ
  decompressionTime : ℚ
  originalSize : ℕ
  compressedSize : ℕ
deriving Repr, DecidableEq

/-- A `ZstdProcessor` instance: `codec` is `null` until `init()` resolves,
`dictionary` is `null` until `createDictionary` runs. -/
structure ZstdProcessor where
  codec : Option Codec
  dictionary : Option Bytes
  performanceMetrics : Metrics

/-- The constructor state of `new ZstdProcessor()`. -/
def ZstdProcessor.new : ZstdProcessor :=
  { codec := none, dictionary := none,
    performanceMetrics := ⟨0, 0, 0, 0⟩ }

/-- The options record destructured by `compressWithProgress`, with the
source's default values.  `chunkSize` is a JS number and may be
non-positive, hence `Int`. -/
structure CompressionOptions where
  level : Int := 5
  useStream : Bool := false
  useDictionary : Bool := false
  chunkSize : Int := 1024 * 1024

/-- Errors surfaced by the engine: the `ZSTD not initialized` throw and the
rethrown `Compression failed` / `Decompression failed` wrappers. -/
inductive ZstdError where
  | notInitialized
  | compressionFailed
  | decompressionFailed
deriving Repr, DecidableEq

/-- One invocation of the progress callback:
`progressCallback(Math.min((i + chunkSize) / data.length, 1), compressedChunk.length)`. -/
structure ProgressEvent where
  fraction : ℚ
  chunkBytes : ℕ
deriving Repr, DecidableEq

/-- The method `createDictionary(sampleData)`:
`this.dictionary = sampleData.slice(0, Math.min(sampleData.length, 1024))`,
returning the dictionary and storing it on the instance. -/
def createDictionary (p : ZstdProcessor) (sampleData : Bytes) :
    Bytes × ZstdProcessor :=
  let d := sampleData.take (min sampleData.length 1024)
  (d, { p with dictionary := some d })

/-- The chunk decomposition performed by the loop
`for (let i = 0; i < data.length; i += chunkSize) { data.slice(i, i + chunkSize); ... }`.
The JS loop does not terminate when `chunkSize ≤ 0`; this model is faithful
only for `cs > 0` (the `cs = 0` branch returns `[]` purely to make the
function total, and every theorem about the streaming path assumes
`0 < chunkSize`). -/
def chunksOf (cs : ℕ) (data : Bytes) : List Bytes :=
  if h : data = [] ∨ cs = 0 then []
  else data.take cs :: chunksOf cs (data.drop cs)
termination_by data.length
decreasing_by
  simp only [not_or] at h
  have hd : data ≠ [] := h.1
  have hcs : cs ≠ 0 := h.2
  have h1 : 0 < data.length := List.length_pos.mpr hd
  have h2 : 0 < cs := Nat.pos_of_ne_zero hcs
  simp only [List.length_drop]
  omega

/-- The body of `streamCompress`: walks the input exactly as the JS loop
does (current offset `i`, `total = data.length` fixed at entry), compresses
each `chunk = data.slice(i, i + chunkSize)` with `ZstdStream.compress`,
records the progress-callback invocation
`(Math.min((i + chunkSize)/total, 1), compressedChunk.length)`, and
concatenates the compressed chunks in order (the source pushes chunks into
an array and copies them into one `Uint8Array` afterwards; concatenation is
associative so the result is identical).  A codec throw yields `none`.
As with `chunksOf`, the `cs = 0` guard only makes the function total. -/
def streamCompressGo (c : Codec) (dict : Option Bytes) (level : Int)
    (cs : ℕ) (total : ℕ) (data : Bytes) (i : ℕ) :
    Option (Bytes × List ProgressEvent) :=
  if h : data = [] ∨ cs = 0 then some ([], [])
  else
    match c.zstdStreamCompress (data.take cs) level dict with
    | none => none
    | some cChunk =>
      match streamCompressGo c dict level cs total (data.drop cs) (i + cs) with
      | none => none
      | some (rest, evs) =>
        some (cChunk ++ rest,
          ⟨min (((i : ℚ) + cs) / (total : ℚ)) 1, cChunk.length⟩ :: evs)
termination_by data.length
decreasing_by
  simp only [not_or] at h
  have h1 : 0 < data.length := List.length_pos.mpr h.1
  have h2 : 0 < cs := Nat.pos_of_ne_zero h.2
  simp only [List.length_drop]
  omega

/-- The method `streamCompress(data, level, useDictionary, chunkSize, cb)`
with the dictionary already resolved to the value the source passes
(`useDictionary ? this.dictionary : omitted`). -/
def streamCompress (c : Codec) (dict : Option Bytes) (data : Bytes)
    (level : Int) (cs : ℕ) : Option (Bytes × List ProgressEvent) :=
  streamCompressGo c dict level cs data.length data 0

/-- The method `compressWithProgress(data, options, progressCallback)`.
On success it returns the compressed buffer, the progress-callback
invocations, and the updated processor (metrics written only after the
compressed output is fully produced, as in the source); on failure it
returns the error together with the processor state at throw time. -/
def compressWithProgress (p : ZstdProcessor) (data : Bytes)
    (opts : CompressionOptions) (elapsedMs : ℚ) :
    Except (ZstdError × ZstdProcessor)
      (Bytes × List ProgressEvent × ZstdProcessor) :=
  match p.codec with
  | none => .error (.notInitialized, p)
  | some c =>
    let dict := if opts.useDictionary then p.dictionary else none
    let r : Option (Bytes × List ProgressEvent) :=
      if opts.useStream then
        streamCompress c dict data opts.level opts.chunkSize.toNat
      else
        (c.zstdSimpleCompress data opts.level dict).map (fun out => (out, []))
    match r with
    | none => .error (.compressionFailed, p)
    | some (out, evs) =>
      .ok (out, evs,
        { p with performanceMetrics :=
          { compressionTime := elapsedMs
            decompressionTime := p.performanceMetrics.decompressionTime
            originalSize := data.length
            compressedSize := out.length } })

/-- The method `decompress(compressedData, useDictionary = false)`: a single
`ZstdStream.decompress` call over the whole buffer, recording only the
elapsed time on success. -/
def decompress (p : ZstdProcessor) (compressedData : Bytes)
    (useDictionary : Bool) (elapsedMs : ℚ) :
    Except (ZstdError × ZstdProcessor) (Bytes × ZstdProcessor) :=
  match p.codec with
  | none => .error (.notInitialized, p)
  | some c =>
    let dict := if useDictionary then p.dictionary else none
    match c.zstdStreamDecompress compressedData dict with
    | none => .error (.decompressionFailed, p)
    | some out =>
      .ok (out,
        { p with performanceMetrics :=
          { p.performanceMetrics with decompressionTime := elapsedMs } })

/-- The snapshot returned by `getMetrics()`, with
`compressionRatio = originalSize / (compressedSize || 1)` (the JS `||`
replaces a zero `compressedSize` by `1`). -/
structure MetricsSnapshot where
  compressionTime : ℚ
  decompressionTime : ℚ
  originalSize : ℕ
  compressedSize : ℕ
  compressionRatio : ℚ
deriving Repr, DecidableEq

/-- The method `getMetrics()`. -/
def getMetrics (p : ZstdProcessor) : MetricsSnapshot :=
  { compressionTime := p.performanceMetrics.compressionTime
    decompressionTime := p.performanceMetrics.decompressionTime
    originalSize := p.performanceMetrics.originalSize
    compressedSize := p.performanceMetrics.compressedSize
    compressionRatio := (p.performanceMetrics.originalSize : ℚ) /
      ((if p.performanceMetrics.compressedSize = 0 then 1
        else p.performanceMetrics.compressedSize : ℕ) : ℚ) }

/-- Modelled from the spec: the 4-byte little-endian encoding of a length,
used by the framing the spec mandates in section 4.4 (`[uint32 length LE]`).
This definition follows the spec's words, not the source (the source emits
no length prefixes); it is the refinement target claim C1 compares the
source against. -/
def le32 (n : ℕ) : Bytes :=
  [n % 256, n / 256 % 256, n / 256 ^ 2 % 256, n / 256 ^ 3 % 256]

/-- Modelled from the spec: the wire format section 4.4 mandates, one
`[4-byte little-endian length][compressed bytes]` frame per chunk,
concatenated in chunk order with no trailing padding. -/
def framedConcat (frames : List Bytes) : Bytes :=
  (frames.map (fun f => le32 f.length ++ f)).flatten

/-- Compress every chunk in order with the given codec call, failing if any
single call fails (the per-chunk codec calls of the `streamCompress` loop,
separated from the concatenation). -/
def compressChunks (f : Bytes → Option Bytes) : List Bytes → Option (List Bytes)
  | [] => some []
  | ch :: rest =>
    match f ch with
    | none => none
    | some fc => (compressChunks f rest).map (fun l => fc :: l)

/-- Run a compress call and then decompress its output on the same
processor state, with the same `useDictionary` flag on both sides; `none`
when either side throws.  This is the round-trip of spec section 8. -/
def roundTrip (p : ZstdProcessor) (data : Bytes) (opts : CompressionOptions) :
    Option Bytes :=
  match compressWithProgress p data opts 0 with
  | .error _ => none
  | .ok (out, _, p') =>
    match decompress p' out opts.useDictionary 0 with
    | .error _ => none
    | .ok (dec, _) => some dec

/-- The identity codec: a total codec whose decompress inverts both
compress entry points and splits concatenations; used as a concrete
instance in witnesses and counterexamples. -/
def cId : Codec :=
  { zstdSimpleCompress := fun b _ _ => some b
    zstdStreamCompress := fun b _ _ => some b
    zstdStreamDecompress := fun b _ => some b }

/-- A length-prefixing codec: `compress` prepends the input's length as one
symbol and `decompress` drops exactly one leading symbol.  It is a correct
inverse pair (`decompress (compress b) = b` for both compress entry
points), but its decompress does not split concatenated frames. -/
def cPfx : Codec :=
  { zstdSimpleCompress := fun b _ _ => some (b.length :: b)
    zstdStreamCompress := fun b _ _ => some (b.length :: b)
    zstdStreamDecompress := fun b _ => some b.tail }

/-- An initialized processor with no dictionary set, over a given codec. -/
def freshWith (c : Codec) : ZstdProcessor :=
  { codec := some c, dictionary := none, performanceMetrics := ⟨0, 0, 0, 0⟩ }

/-! ### Chunker lemmas -/

theorem chunksOf_nil (cs : ℕ) : chunksOf cs [] = [] := by
  rw [chunksOf]; simp

theorem chunksOf_cons (cs : ℕ) (data : Bytes) (hcs : cs ≠ 0) (hd : data ≠ []) :
    chunksOf cs data = data.take cs :: chunksOf cs (data.drop cs) := by
  conv_lhs => rw [chunksOf]
  rw [dif_neg (not_or.mpr ⟨hd, hcs⟩)]

theorem chunksOf_flatten (cs : ℕ) (hcs : 0 < cs) (data : Bytes) :
    (chunksOf cs data).flatten = data := by
  induction data using chunksOf.induct cs with
  | case1 x h =>
    rcases h with h | h
    · subst h; rw [chunksOf_nil]; rfl
    · omega
  | case2 x h ih =>
    rw [chunksOf_cons cs x (by omega) (not_or.mp h).1, List.flatten_cons, ih,
      List.take_append_drop]

theorem chunksOf_length_le (cs : ℕ) (data : Bytes) :
    ∀ ch ∈ chunksOf cs data, ch.length ≤ cs := by
  induction data using chunksOf.induct cs with
  | case1 x h => rw [chunksOf]; simp [h]
  | case2 x h ih =>
    rw [chunksOf_cons cs x (not_or.mp h).2 (not_or.mp h).1]
    intro ch hch
    rcases List.mem_cons.mp hch with rfl | hch
    · exact x.length_take_le cs
    · exact ih ch hch

theorem chunksOf_dropLast_length (cs : ℕ) (data : Bytes) :
    ∀ ch ∈ (chunksOf cs data).dropLast, ch.length = cs := by
  induction data using chunksOf.induct cs with
  | case1 x h => rw [chunksOf]; simp [h]
  | case2 x h ih =>
    obtain ⟨hx, hcs⟩ := not_or.mp h
    rw [chunksOf_cons cs x hcs hx]
    by_cases hdrop : x.drop cs = []
    · rw [hdrop, chunksOf_nil]
      simp
    · rw [List.dropLast_cons_of_ne_nil (by rw [chunksOf_cons cs _ hcs hdrop]; simp)]
      intro ch hch
      rcases List.mem_cons.mp hch with rfl | hch
      · have hlt : cs < x.length := by
          have := List.length_lt_of_drop_ne_nil hdrop
          omega
        simp [List.length_take]
        omega
      · exact ih ch hch

theorem chunksOf_single (cs : ℕ) (data : Bytes) (hcs : cs ≠ 0) (hd : data ≠ [])
    (hlen : data.length ≤ cs) : chunksOf cs data = [data] := by
  rw [chunksOf_cons cs data hcs hd, List.take_of_length_le hlen,
    List.drop_of_length_le hlen, chunksOf_nil]

/-- C6: for every input buffer and every positive chunkSize, the loop
`for (i = 0; i < data.length; i += chunkSize) data.slice(i, i + chunkSize)`
produces an ordered sequence of contiguous chunks covering the entire input
with no gaps (their concatenation is the input), every chunk before the
last has length exactly chunkSize, every chunk has length at most
chunkSize, a nonempty input no longer than chunkSize yields exactly one
chunk, and an empty input yields zero chunks. -/
theorem chunksOf_spec (cs : ℕ) (data : Bytes) (hcs : 0 < cs) :
    (chunksOf cs data).flatten = data ∧
    (∀ ch ∈ (chunksOf cs data).dropLast, ch.length = cs) ∧
    (∀ ch ∈ chunksOf cs data, ch.length ≤ cs) ∧
    (data ≠ [] → data.length ≤ cs → chunksOf cs data = [data]) ∧
    (data = [] → chunksOf cs data = []) :=
  ⟨chunksOf_flatten cs hcs data, chunksOf_dropLast_length cs data,
    chunksOf_length_le cs data,
    fun hd hlen => chunksOf_single cs data (by omega) hd hlen,
    fun hd => by rw [hd, chunksOf_nil]⟩

theorem chunksOf_spec_witness :
    (0 : ℕ) < 4 ∧
    ((chunksOf 4 [0, 1, 2, 3, 4, 5, 6, 7, 8, 9]).flatten
        = [0, 1, 2, 3, 4, 5, 6, 7, 8, 9] ∧
      (∀ ch ∈ (chunksOf 4 [0, 1, 2, 3, 4, 5, 6, 7, 8, 9]).dropLast,
        ch.length = 4) ∧
      (∀ ch ∈ chunksOf 4 [0, 1, 2, 3, 4, 5, 6, 7, 8, 9], ch.length ≤ 4) ∧
      (([0, 1, 2, 3, 4, 5, 6, 7, 8, 9] : Bytes) ≠ [] →
        ([0, 1, 2, 3, 4, 5, 6, 7, 8, 9] : Bytes).length ≤ 4 →
        chunksOf 4 [0, 1, 2, 3, 4, 5, 6, 7, 8, 9]
          = [[0, 1, 2, 3, 4, 5, 6, 7, 8, 9]]) ∧
      (([0, 1, 2, 3, 4, 5, 6, 7, 8, 9] : Bytes) = [] →
        chunksOf 4 [0, 1, 2, 3, 4, 5, 6, 7, 8, 9] = [])) :=
  ⟨by norm_num, chunksOf_spec 4 [0, 1, 2, 3, 4, 5, 6, 7, 8, 9] (by norm_num)⟩

/-- C7: `createDictionary` returns exactly the first min(len(sample), 1024)
bytes of the sample, stores that result as the instance's active
dictionary, and is deterministic: its result depends only on the sample,
never on the rest of the engine state. -/
theorem createDictionary_spec (p q : ZstdProcessor) (s : Bytes) :
    (createDictionary p s).1 = s.take (min s.length 1024) ∧
    ((createDictionary p s).1).length = min s.length 1024 ∧
    (createDictionary p s).2.dictionary = some ((createDictionary p s).1) ∧
    (createDictionary p s).1 = (createDictionary q s).1 := by
  refine ⟨rfl, ?_, rfl, rfl⟩
  simp [createDictionary, List.length_take]

/-! ### State-shape lemmas for the engine operations -/

/-- A codec every call of which throws; used to exercise the engine's
failure paths. -/
def cFail : Codec :=
  { zstdSimpleCompress := fun _ _ _ => none
    zstdStreamCompress := fun _ _ _ => none
    zstdStreamDecompress := fun _ _ => none }

theorem compress_ok_state {p : ZstdProcessor} {data : Bytes}
    {opts : CompressionOptions} {t : ℚ} {out : Bytes}
    {evs : List ProgressEvent} {p' : ZstdProcessor}
    (h : compressWithProgress p data opts t = .ok (out, evs, p')) :
    p'.codec = p.codec ∧ p'.dictionary = p.dictionary ∧
    p'.performanceMetrics
      = ⟨t, p.performanceMetrics.decompressionTime, data.length, out.length⟩ := by
  unfold compressWithProgress at h
  cases hc : p.codec with
  | none => rw [hc] at h; exact absurd h (by simp)
  | some c =>
    rw [hc] at h
    simp only at h
    split at h
    · exact absurd h (by simp)
    · rename_i o e heq
      rw [Except.ok.injEq, Prod.mk.injEq, Prod.mk.injEq] at h
      obtain ⟨ho, he, hp⟩ := h
      subst ho
      rw [← hp]
      exact ⟨rfl, rfl, rfl⟩

theorem compress_error_state {p : ZstdProcessor} {data : Bytes}
    {opts : CompressionOptions} {t : ℚ} {e : ZstdError} {p' : ZstdProcessor}
    (h : compressWithProgress p data opts t = .error (e, p')) : p' = p := by
  unfold compressWithProgress at h
  cases hc : p.codec with
  | none =>
    rw [hc, Except.error.injEq, Prod.mk.injEq] at h
    exact h.2.symm
  | some c =>
    rw [hc] at h
    simp only at h
    split at h
    · rw [Except.error.injEq, Prod.mk.injEq] at h
      exact h.2.symm
    · exact absurd h (by simp)

theorem decompress_ok_state {p : ZstdProcessor} {buf : Bytes}
    {useDict : Bool} {t : ℚ} {out : Bytes} {p' : ZstdProcessor}
    (h : decompress p buf useDict t = .ok (out, p')) :
    p'.codec = p.codec ∧ p'.dictionary = p.dictionary ∧
    p'.performanceMetrics
      = { p.performanceMetrics with decompressionTime := t } := by
  unfold decompress at h
  cases hc : p.codec with
  | none => rw [hc] at h; exact absurd h (by simp)
  | some c =>
    rw [hc] at h
    simp only at h
    split at h
    · exact absurd h (by simp)
    · rename_i o heq
      rw [Except.ok.injEq, Prod.mk.injEq] at h
      rw [← h.2]
      exact ⟨rfl, rfl, rfl⟩

/-! ### C3: option validation -/

/-- C3 counterexample: a compress call with `useDictionary = true` while no
dictionary has been set AND a non-positive `chunkSize` (both trigger
conditions of the claim) does not fail at all: it succeeds and returns the
codec's output, with the codec invoked without a dictionary. -/
theorem config_validation_cex :
    (freshWith cId).dictionary = none ∧
    compressWithProgress (freshWith cId) [9]
        { level := 5, useStream := false, useDictionary := true,
          chunkSize := 0 } 0
      = .ok ([9], [], ⟨some cId, none, ⟨0, 0, 1, 1⟩⟩) :=
  ⟨rfl, by simp [compressWithProgress, freshWith, cId]⟩

/-- C3 (amended): the compression operation performs no option validation
and has no ConfigError: with `useDictionary = true` while no dictionary is
set it proceeds, passing no dictionary to the codec (silently compressing
without one), for every `chunkSize` including non-positive ones (unused in
non-streaming mode; the streaming loop does not terminate on them). -/
theorem compress_skips_validation (c : Codec) (m : Metrics) (data : Bytes)
    (lvl cs : Int) (t : ℚ) (out : Bytes)
    (h : c.zstdSimpleCompress data lvl none = some out) :
    compressWithProgress ⟨some c, none, m⟩ data
        { level := lvl, useStream := false, useDictionary := true,
          chunkSize := cs } t
      = .ok (out, [],
          ⟨some c, none, ⟨t, m.decompressionTime, data.length, out.length⟩⟩) := by
  simp [compressWithProgress, h]

theorem compress_skips_validation_witness :
    cId.zstdSimpleCompress [3] 5 none = some [3] ∧
    compressWithProgress ⟨some cId, none, ⟨0, 0, 0, 0⟩⟩ [3]
        { level := 5, useStream := false, useDictionary := true,
          chunkSize := -7 } 2
      = .ok ([3], [], ⟨some cId, none, ⟨2, 0, 1, 1⟩⟩) :=
  ⟨rfl, compress_skips_validation cId ⟨0, 0, 0, 0⟩ [3] 5 (-7) 2 [3] rfl⟩

/-! ### C4: framing on decompression -/

/-- C4 counterexample: `[0, 1]` compressed in streaming mode (chunkSize 1,
identity codec) yields the buffer `[0, 1]`; truncating its last byte gives
`[0]`, and decompressing that truncated buffer SUCCEEDS, returning `[0]` —
no FramingError is raised and output is returned. -/
theorem framing_error_cex :
    (compressWithProgress (freshWith cId) [0, 1]
        { level := 5, useStream := true, useDictionary := false,
          chunkSize := 1 } 0).toOption.map (fun r => r.1) = some [0, 1] ∧
    ([0, 1] : Bytes).dropLast = [0] ∧
    (decompress ⟨some cId, none, ⟨0, 0, 2, 2⟩⟩ [0] false 0).toOption.map
      Prod.fst = some [0] := by
  refine ⟨?_, rfl, ?_⟩
  · simp [compressWithProgress, streamCompress, streamCompressGo, freshWith, cId]
    exact ⟨_, _, rfl⟩
  · simp [decompress, cId]
    exact ⟨_, rfl⟩

/-- C4 (amended): the decompression operation performs no length-prefix
parsing and raises no FramingError: on a streaming-compressed buffer with
its last byte truncated it makes a single codec `ZstdStream.decompress`
call on the truncated buffer, succeeding with the codec's output whenever
the codec succeeds; only a codec throw makes it fail, as a generic
decompression failure. -/
theorem decompress_skips_framing (c : Codec) (pd : Option Bytes)
    (m : Metrics) (data out : Bytes) (evs : List ProgressEvent)
    (p' : ZstdProcessor) (lvl cs : Int) (t1 t2 : ℚ) (useDict : Bool)
    (dec : Bytes)
    (hcomp : compressWithProgress ⟨some c, pd, m⟩ data
        { level := lvl, useStream := true, useDictionary := useDict,
          chunkSize := cs } t1
      = .ok (out, evs, p'))
    (hdec : c.zstdStreamDecompress out.dropLast
        (if useDict then pd else none) = some dec) :
    decompress p' out.dropLast useDict t2
      = .ok (dec, { p' with performanceMetrics :=
          { p'.performanceMetrics with decompressionTime := t2 } }) := by
  obtain ⟨hc, hd, hm⟩ := compress_ok_state hcomp
  obtain ⟨pc, pdic, pm⟩ := p'
  simp only at hc hd hm
  subst hc; subst hd; subst hm
  simp [decompress, hdec]

theorem decompress_skips_framing_witness :
    decompress ⟨some cId, none, ⟨0, 0, 2, 2⟩⟩ ([0, 1] : Bytes).dropLast
        false 6
      = .ok ([0],
          { (⟨some cId, none, ⟨0, 0, 2, 2⟩⟩ : ZstdProcessor) with
            performanceMetrics :=
              { (⟨0, 0, 2, 2⟩ : Metrics) with decompressionTime := 6 } }) :=
  decompress_skips_framing cId none ⟨0, 0, 0, 0⟩ [0, 1] [0, 1]
    [⟨1/2, 1⟩, ⟨1, 1⟩] ⟨some cId, none, ⟨0, 0, 2, 2⟩⟩ 5 1 0 6 false [0]
    (by simp [compressWithProgress, streamCompress, streamCompressGo, cId]
        norm_num)
    rfl

/-! ### C8: metrics snapshot -/

/-- C8: before any compress/decompress call every field of the metrics
snapshot is 0, and after a successful compression of a buffer of length n
producing output of length m the snapshot has originalSize = n,
compressedSize = m, and compressionRatio = n / max(m, 1). -/
theorem getMetrics_spec (p : ZstdProcessor) (data : Bytes)
    (opts : CompressionOptions) (t : ℚ) (out : Bytes)
    (evs : List ProgressEvent) (p' : ZstdProcessor)
    (h : compressWithProgress p data opts t = .ok (out, evs, p')) :
    getMetrics ZstdProcessor.new = ⟨0, 0, 0, 0, 0⟩ ∧
    (getMetrics p').originalSize = data.length ∧
    (getMetrics p').compressedSize = out.length ∧
    (getMetrics p').compressionRatio
      = (data.length : ℚ) / ((max out.length 1 : ℕ) : ℚ) := by
  obtain ⟨_, _, hm⟩ := compress_ok_state h
  refine ⟨by simp [getMetrics, ZstdProcessor.new], by simp [getMetrics, hm],
    by simp [getMetrics, hm], ?_⟩
  simp only [getMetrics, hm]
  by_cases h0 : out.length = 0
  · simp [h0]
  · have hmax : max out.length 1 = out.length := by omega
    simp [h0, hmax]

theorem getMetrics_spec_witness :
    getMetrics ZstdProcessor.new = ⟨0, 0, 0, 0, 0⟩ ∧
    (getMetrics (⟨some cId, none, ⟨3, 0, 2, 2⟩⟩ : ZstdProcessor)).originalSize
      = ([5, 6] : Bytes).length ∧
    (getMetrics (⟨some cId, none, ⟨3, 0, 2, 2⟩⟩ : ZstdProcessor)).compressedSize
      = ([5, 6] : Bytes).length ∧
    (getMetrics (⟨some cId, none, ⟨3, 0, 2, 2⟩⟩ : ZstdProcessor)).compressionRatio
      = (([5, 6] : Bytes).length : ℚ) / ((max ([5, 6] : Bytes).length 1 : ℕ) : ℚ) :=
  getMetrics_spec (freshWith cId) [5, 6] {} 3 [5, 6] []
    ⟨some cId, none, ⟨3, 0, 2, 2⟩⟩
    (by simp [compressWithProgress, freshWith, cId])

/-! ### C9: failed compression leaves metrics untouched -/

/-- C9: whenever the compression operation throws — uninitialized engine or
codec failure — the performance-metrics record is exactly as it was before
the call: all metric writes happen only after the compressed output has
been fully produced. -/
theorem compress_throw_preserves_metrics (p : ZstdProcessor) (data : Bytes)
    (opts : CompressionOptions) (t : ℚ) (e : ZstdError) (p' : ZstdProcessor)
    (h : compressWithProgress p data opts t = .error (e, p')) :
    p'.performanceMetrics = p.performanceMetrics :=
  congrArg ZstdProcessor.performanceMetrics (compress_error_state h)

theorem compress_throw_preserves_metrics_witness :
    compressWithProgress ⟨some cFail, none, ⟨1, 2, 3, 4⟩⟩ [9] {} 7
      = .error (.compressionFailed, ⟨some cFail, none, ⟨1, 2, 3, 4⟩⟩) ∧
    (⟨some cFail, none, ⟨1, 2, 3, 4⟩⟩ : ZstdProcessor).performanceMetrics
      = (⟨some cFail, none, ⟨1, 2, 3, 4⟩⟩ : ZstdProcessor).performanceMetrics :=
  ⟨by simp [compressWithProgress, cFail],
    compress_throw_preserves_metrics ⟨some cFail, none, ⟨1, 2, 3, 4⟩⟩ [9] {} 7
      .compressionFailed ⟨some cFail, none, ⟨1, 2, 3, 4⟩⟩
      (by simp [compressWithProgress, cFail])⟩

/-! ### C10: decompression frame effect -/

/-- C10: a successful decompression call writes the elapsed time into
decompressionTime and changes nothing else: compressionTime, originalSize,
compressedSize, the stored dictionary and the codec are all unchanged. -/
theorem decompress_updates_only_time (p : ZstdProcessor) (buf : Bytes)
    (useDict : Bool) (t : ℚ) (out : Bytes) (p' : ZstdProcessor)
    (h : decompress p buf useDict t = .ok (out, p')) :
    p'.performanceMetrics.decompressionTime = t ∧
    p'.performanceMetrics.compressionTime
      = p.performanceMetrics.compressionTime ∧
    p'.performanceMetrics.originalSize
      = p.performanceMetrics.originalSize ∧
    p'.performanceMetrics.compressedSize
      = p.performanceMetrics.compressedSize ∧
    p'.dictionary = p.dictionary ∧ p'.codec = p.codec := by
  obtain ⟨hc, hd, hm⟩ := decompress_ok_state h
  rw [hm]
  exact ⟨rfl, rfl, rfl, rfl, hd, hc⟩

theorem decompress_updates_only_time_witness :
    (⟨some cId, some [1], ⟨5, 9, 3, 2⟩⟩ : ZstdProcessor).performanceMetrics.decompressionTime
        = (9 : ℚ) ∧
    (⟨some cId, some [1], ⟨5, 9, 3, 2⟩⟩ : ZstdProcessor).performanceMetrics.compressionTime
        = (⟨some cId, some [1], ⟨5, 0, 3, 2⟩⟩ : ZstdProcessor).performanceMetrics.compressionTime ∧
    (⟨some cId, some [1], ⟨5, 9, 3, 2⟩⟩ : ZstdProcessor).performanceMetrics.originalSize
        = (⟨some cId, some [1], ⟨5, 0, 3, 2⟩⟩ : ZstdProcessor).performanceMetrics.originalSize ∧
    (⟨some cId, some [1], ⟨5, 9, 3, 2⟩⟩ : ZstdProcessor).performanceMetrics.compressedSize
        = (⟨some cId, some [1], ⟨5, 0, 3, 2⟩⟩ : ZstdProcessor).performanceMetrics.compressedSize ∧
    (⟨some cId, some [1], ⟨5, 9, 3, 2⟩⟩ : ZstdProcessor).dictionary
        = (⟨some cId, some [1], ⟨5, 0, 3, 2⟩⟩ : ZstdProcessor).dictionary ∧
    (⟨some cId, some [1], ⟨5, 9, 3, 2⟩⟩ : ZstdProcessor).codec
        = (⟨some cId, some [1], ⟨5, 0, 3, 2⟩⟩ : ZstdProcessor).codec :=
  decompress_updates_only_time ⟨some cId, some [1], ⟨5, 0, 3, 2⟩⟩ [8] true 9
    [8] ⟨some cId, some [1], ⟨5, 9, 3, 2⟩⟩ (by simp [decompress, cId])

/-! ### C1: wire format of the streaming output -/

theorem streamCompressGo_fst (c : Codec) (dict : Option Bytes) (lvl : Int)
    (cs total : ℕ) :
    ∀ (data : Bytes) (i : ℕ),
      (streamCompressGo c dict lvl cs total data i).map Prod.fst
        = (compressChunks (fun ch => c.zstdStreamCompress ch lvl dict)
            (chunksOf cs data)).map List.flatten := by
  intro data i
  induction data, i using streamCompressGo.induct c dict lvl cs total with
  | case1 data i h =>
    rw [streamCompressGo, chunksOf, dif_pos h, dif_pos h]
    simp [compressChunks]
  | case2 data i h hnone =>
    obtain ⟨hd, hcs⟩ := not_or.mp h
    rw [streamCompressGo, dif_neg h, chunksOf_cons cs data hcs hd]
    simp [compressChunks, hnone]
  | case3 data i h cChunk hsome hrec ih =>
    obtain ⟨hd, hcs⟩ := not_or.mp h
    rw [streamCompressGo, dif_neg h, chunksOf_cons cs data hcs hd]
    rw [hrec] at ih
    have hnone : compressChunks (fun ch => c.zstdStreamCompress ch lvl dict)
        (chunksOf cs (data.drop cs)) = none :=
      Option.map_eq_none'.mp ih.symm
    simp [compressChunks, hsome, hrec, hnone]
  | case4 data i h cChunk hsome rest evs hrec ih =>
    obtain ⟨hd, hcs⟩ := not_or.mp h
    rw [streamCompressGo, dif_neg h, chunksOf_cons cs data hcs hd]
    rw [hrec] at ih
    obtain ⟨L, hL, hflat⟩ := Option.map_eq_some'.mp ih.symm
    simp [compressChunks, hsome, hrec, hL, hflat]

/-- C1 counterexample: with the identity codec, streaming-compressing the
one-byte input `[0]` with chunkSize 1 produces the buffer `[0]` — the bare
concatenation of the per-chunk codec outputs — whereas the claimed wire
format (one `[4-byte LE length][bytes]` frame per chunk) would be
`[1, 0, 0, 0, 0]`.  The engine's output is not the framed concatenation. -/
theorem stream_framing_cex :
    (streamCompress cId none [0] 5 1).map Prod.fst = some [0] ∧
    compressChunks (fun ch => cId.zstdStreamCompress ch 5 none)
      (chunksOf 1 [0]) = some [[0]] ∧
    framedConcat [[0]] = [1, 0, 0, 0, 0] ∧
    ([0] : Bytes) ≠ framedConcat [[0]] := by
  refine ⟨?_, ?_, by decide, by decide⟩
  · simp [streamCompress, streamCompressGo, cId]
  · simp [chunksOf, compressChunks, cId]

/-- C1 (amended): in streaming mode the compressed output is the plain
concatenation, in chunk order, of the codec's compressed bytes for each
chunk — with NO length prefixes and no trailing padding; the engine relies
on the codec's own frames being self-delimiting instead of emitting the
`[4-byte LE length][bytes]` frames the spec mandates. -/
theorem streamCompress_plain_concat (c : Codec) (dict : Option Bytes)
    (data out : Bytes) (evs : List ProgressEvent) (lvl : Int) (cs : ℕ)
    (h : streamCompress c dict data lvl cs = some (out, evs)) :
    ∃ frames, compressChunks (fun ch => c.zstdStreamCompress ch lvl dict)
        (chunksOf cs data) = some frames ∧ out = frames.flatten := by
  have hfst := streamCompressGo_fst c dict lvl cs data.length data 0
  rw [streamCompress] at h
  rw [h] at hfst
  obtain ⟨frames, hf, hflat⟩ := Option.map_eq_some'.mp hfst.symm
  exact ⟨frames, hf, hflat.symm⟩

theorem streamCompress_plain_concat_witness :
    ∃ frames, compressChunks (fun ch => cId.zstdStreamCompress ch 5 none)
        (chunksOf 2 [0, 1, 2]) = some frames ∧
      ([0, 1, 2] : Bytes) = frames.flatten :=
  streamCompress_plain_concat cId none [0, 1, 2] [0, 1, 2]
    [⟨2/3, 2⟩, ⟨1, 1⟩] 5 2
    (by simp [streamCompress, streamCompressGo, cId]
        norm_num)

/-! ### C2: round-trip -/

theorem streamGo_dec (c : Codec) (d : Option Bytes) (lvl : Int)
    (cs total : ℕ) (hcs : 0 < cs)
    (htot : ∀ b, (c.zstdStreamCompress b lvl d).isSome)
    (hnil : c.zstdStreamDecompress [] d = some [])
    (hsplit : ∀ b cb rest, c.zstdStreamCompress b lvl d = some cb →
      c.zstdStreamDecompress (cb ++ rest) d
        = (c.zstdStreamDecompress rest d).map (fun t => b ++ t)) :
    ∀ (data : Bytes) (i : ℕ), ∃ out evs,
      streamCompressGo c d lvl cs total data i = some (out, evs) ∧
      c.zstdStreamDecompress out d = some data := by
  intro data i
  induction data, i using streamCompressGo.induct c d lvl cs total with
  | case1 data i h =>
    have hdata : data = [] := by
      rcases h with h | h
      · exact h
      · omega
    subst hdata
    exact ⟨[], [], by rw [streamCompressGo, dif_pos (Or.inl rfl)], hnil⟩
  | case2 data i h hnone =>
    have := htot (data.take cs)
    rw [hnone] at this
    exact absurd this (by simp)
  | case3 data i h cChunk hsome hrec ih =>
    obtain ⟨out, evs, hgo, _⟩ := ih
    rw [hrec] at hgo
    exact absurd hgo (by simp)
  | case4 data i h cChunk hsome rest evs hrec ih =>
    obtain ⟨out', evs', hgo, hdec⟩ := ih
    rw [hrec, Option.some.injEq, Prod.mk.injEq] at hgo
    obtain ⟨ho, he⟩ := hgo
    subst ho
    refine ⟨cChunk ++ rest,
      ⟨min (((i : ℚ) + cs) / (total : ℚ)) 1, cChunk.length⟩ :: evs, ?_, ?_⟩
    · rw [streamCompressGo, dif_neg h, hsome, hrec]
    · rw [hsplit (data.take cs) cChunk rest hsome, hdec]
      simp

/-- C2 counterexample: `cPfx` is a correct inverse pair — for every input,
decompressing the (simple or stream) compression returns the input — yet
streaming-compressing `[7, 8]` with chunkSize 1 and then decompressing
(same engine state, same useDictionary flag on both sides) yields
`[7, 1, 8]`, not `[7, 8]`: the single whole-buffer `ZstdStream.decompress`
call of `decompress` cannot recover chunk boundaries from a bare
concatenation for a codec whose frames are not self-delimiting. -/
theorem roundTrip_inverse_pair_cex :
    (∀ (b : Bytes) (lvl : Int) (d : Option Bytes),
      (cPfx.zstdSimpleCompress b lvl d).bind
        (fun cb => cPfx.zstdStreamDecompress cb d) = some b) ∧
    (∀ (b : Bytes) (lvl : Int) (d : Option Bytes),
      (cPfx.zstdStreamCompress b lvl d).bind
        (fun cb => cPfx.zstdStreamDecompress cb d) = some b) ∧
    roundTrip (freshWith cPfx) [7, 8]
        { level := 5, useStream := true, useDictionary := false,
          chunkSize := 1 }
      = some [7, 1, 8] ∧
    ([7, 1, 8] : Bytes) ≠ [7, 8] := by
  refine ⟨fun b lvl d => rfl, fun b lvl d => rfl, ?_, by decide⟩
  simp [roundTrip, compressWithProgress, decompress, streamCompress,
    streamCompressGo, cPfx, freshWith]

/-- C2 (amended): decompress-after-compress returns the input exactly,
with the same useDictionary flag and stored dictionary on both sides,
provided the codec satisfies — for the dictionary value the engine passes —
(a) the stream decompress inverts the simple compress (the pair the
non-streaming path actually uses, since compression calls
`ZstdSimple.compress` but decompression calls `ZstdStream.decompress`),
and, for streaming mode, (b) stream compression is total, (c) decompressing
the empty buffer yields the empty buffer, and (d) decompress splits
concatenated compressed frames (`decompress(compress(b) ++ rest) = b ++
decompress(rest)`).  A mere inverse pair is not enough: condition (d) — the
codec's frames being self-delimiting under concatenation — is what the
unframed streaming path relies on. -/
theorem compress_decompress_roundTrip (c : Codec) (pd : Option Bytes)
    (m : Metrics) (data : Bytes) (opts : CompressionOptions)
    (d : Option Bytes) (hd : d = if opts.useDictionary then pd else none)
    (hcs : 0 < opts.chunkSize)
    (hns : ∀ b, (c.zstdSimpleCompress b opts.level d).bind
      (fun cb => c.zstdStreamDecompress cb d) = some b)
    (htot : ∀ b, (c.zstdStreamCompress b opts.level d).isSome)
    (hnil : c.zstdStreamDecompress [] d = some [])
    (hsplit : ∀ b cb rest, c.zstdStreamCompress b opts.level d = some cb →
      c.zstdStreamDecompress (cb ++ rest) d
        = (c.zstdStreamDecompress rest d).map (fun t => b ++ t)) :
    roundTrip ⟨some c, pd, m⟩ data opts = some data := by
  cases hus : opts.useStream
  case false =>
    have h := hns data
    rcases hcomp : c.zstdSimpleCompress data opts.level d with _ | cb
    · rw [hcomp] at h; simp at h
    · rw [hcomp, Option.some_bind] at h
      rw [hd] at hcomp h
      simp [roundTrip, compressWithProgress, hus, hcomp, decompress, h]
  case true =>
    obtain ⟨out, evs, hgo, hdec⟩ :=
      streamGo_dec c d opts.level opts.chunkSize.toNat data.length
        (by omega) htot hnil hsplit data 0
    rw [hd] at hgo hdec
    simp [roundTrip, compressWithProgress, hus, streamCompress, hgo,
      decompress, hdec]

theorem compress_decompress_roundTrip_witness :
    roundTrip ⟨some cId, none, ⟨0, 0, 0, 0⟩⟩ [7, 8]
        { level := 5, useStream := true, useDictionary := false,
          chunkSize := 1 }
      = some [7, 8] :=
  compress_decompress_roundTrip cId none ⟨0, 0, 0, 0⟩ [7, 8]
    { level := 5, useStream := true, useDictionary := false, chunkSize := 1 }
    none rfl (by norm_num)
    (fun b => rfl)
    (fun b => rfl)
    rfl
    (fun b cb rest hcb => by
      have hb : b = cb := by injection hcb
      subst hb
      rfl)

/-! ### C5: progress callback invariants -/

theorem streamGo_events (c : Codec) (d : Option Bytes) (lvl : Int)
    (cs total : ℕ) (hcs : 0 < cs) (htotal : 0 < total) :
    ∀ (data : Bytes) (i : ℕ) (out : Bytes) (evs : List ProgressEvent),
      total ≤ i + data.length →
      streamCompressGo c d lvl cs total data i = some (out, evs) →
      ((evs.map ProgressEvent.chunkBytes).sum = out.length ∧
        List.Chain' (· ≤ ·) (evs.map ProgressEvent.fraction)) ∧
      (data = [] → evs = []) ∧
      (data ≠ [] →
        evs.head?.map ProgressEvent.fraction
          = some (min (((i : ℚ) + cs) / (total : ℚ)) 1) ∧
        evs.getLast?.map ProgressEvent.fraction = some 1) := by
  have htotalQ : (0 : ℚ) < (total : ℚ) := by exact_mod_cast htotal
  intro data i
  induction data, i using streamCompressGo.induct c d lvl cs total with
  | case1 data i h =>
    have hdata : data = [] := by
      rcases h with h | h
      · exact h
      · omega
    subst hdata
    intro out evs hinv hgo
    rw [streamCompressGo, dif_pos (Or.inl rfl), Option.some.injEq,
      Prod.mk.injEq] at hgo
    obtain ⟨ho, he⟩ := hgo
    subst ho; subst he
    exact ⟨⟨rfl, List.chain'_nil⟩, fun _ => rfl, fun hne => absurd rfl hne⟩
  | case2 data i h hnone =>
    intro out evs hinv hgo
    have hgoEq : streamCompressGo c d lvl cs total data i = none := by
      rw [streamCompressGo, dif_neg h, hnone]
    rw [hgoEq] at hgo
    exact absurd hgo (by simp)
  | case3 data i h cChunk hsome hrec ih =>
    intro out evs hinv hgo
    have hgoEq : streamCompressGo c d lvl cs total data i = none := by
      rw [streamCompressGo, dif_neg h, hsome, hrec]
    rw [hgoEq] at hgo
    exact absurd hgo (by simp)
  | case4 data i h cChunk hsome rest evs0 hrec ih =>
    intro out evs hinv hgo
    obtain ⟨hd, hcsne⟩ := not_or.mp h
    have hgoEq : streamCompressGo c d lvl cs total data i
        = some (cChunk ++ rest,
            ⟨min (((i : ℚ) + cs) / (total : ℚ)) 1, cChunk.length⟩ :: evs0) := by
      rw [streamCompressGo, dif_neg h, hsome, hrec]
    rw [hgoEq, Option.some.injEq, Prod.mk.injEq] at hgo
    obtain ⟨ho, he⟩ := hgo
    subst ho; subst he
    have hinv' : total ≤ (i + cs) + (data.drop cs).length := by
      rw [List.length_drop]
      omega
    obtain ⟨⟨hsum, hchain⟩, hnil', hcons'⟩ := ih rest evs0 hinv' hrec
    refine ⟨⟨?_, ?_⟩, fun hne => absurd hne hd, fun _ => ⟨rfl, ?_⟩⟩
    · simp [hsum]
    · rw [List.map_cons, List.chain'_cons']
      refine ⟨?_, hchain⟩
      intro b hb
      by_cases hdrop : data.drop cs = []
      · rw [hnil' hdrop] at hb
        simp at hb
      · obtain ⟨hh, _⟩ := hcons' hdrop
        rw [List.head?_map, hh, Option.mem_def, Option.some.injEq] at hb
        subst hb
        apply min_le_min _ le_rfl
        push_cast
        gcongr
        linarith [Nat.cast_nonneg (α := ℚ) cs]
    · by_cases hdrop : data.drop cs = []
      · have hevs0 : evs0 = [] := hnil' hdrop
        subst hevs0
        have hlen : data.length ≤ cs := by
          have := List.length_drop cs data
          rw [hdrop] at this
          simp at this
          omega
        have hge : (total : ℚ) ≤ (i : ℚ) + cs := by
          have : total ≤ i + cs := by omega
          exact_mod_cast this
        simp only [List.getLast?_singleton, Option.map_some']
        rw [min_eq_right ((one_le_div htotalQ).mpr hge)]
      · have hne0 : evs0 ≠ [] := by
          obtain ⟨hh, _⟩ := hcons' hdrop
          intro he0
          rw [he0] at hh
          simp at hh
        cases evs0 with
        | nil => exact absurd rfl hne0
        | cons e' l' =>
          rw [List.getLast?_cons_cons]
          exact (hcons' hdrop).2

/-- C5: for every nonempty input compressed in streaming mode, the
successive progress-callback fractions are monotonically non-decreasing,
the final invocation's fraction is exactly 1, and the reported
compressed-chunk byte lengths sum to the total compressed output size
(the output carries no frame length prefixes, so nothing is excluded). -/
theorem progress_events_spec (c : Codec) (dict : Option Bytes)
    (data : Bytes) (lvl : Int) (cs : ℕ) (out : Bytes)
    (evs : List ProgressEvent) (hd : data ≠ []) (hcs : 0 < cs)
    (h : streamCompress c dict data lvl cs = some (out, evs)) :
    List.Chain' (· ≤ ·) (evs.map ProgressEvent.fraction) ∧
    evs.getLast?.map ProgressEvent.fraction = some 1 ∧
    (evs.map ProgressEvent.chunkBytes).sum = out.length := by
  have htotal : 0 < data.length := List.length_pos.mpr hd
  rw [streamCompress] at h
  obtain ⟨⟨hsum, hchain⟩, _, hlast⟩ :=
    streamGo_events c dict lvl cs data.length hcs htotal data 0 out evs
      (by omega) h
  exact ⟨hchain, (hlast hd).2, hsum⟩

theorem progress_events_spec_witness :
    List.Chain' (· ≤ ·)
      (([⟨2/3, 2⟩, ⟨1, 1⟩] : List ProgressEvent).map ProgressEvent.fraction) ∧
    ([⟨2/3, 2⟩, ⟨1, 1⟩] : List ProgressEvent).getLast?.map
      ProgressEvent.fraction = some 1 ∧
    (([⟨2/3, 2⟩, ⟨1, 1⟩] : List ProgressEvent).map
      ProgressEvent.chunkBytes).sum = ([0, 1, 2] : Bytes).length :=
  progress_events_spec cId none [0, 1, 2] 5 2 [0, 1, 2] [⟨2/3, 2⟩, ⟨1, 1⟩]
    (by simp) (by norm_num)
    (by simp [streamCompress, streamCompressGo, cId]
        norm_num)
